import Mathlib

/-!
Verification of the TorchLRP MNIST explanation driver (examples/explain_mnist.py)
and the LRP attribution / pattern-fitting engine it drives.

All arithmetic is embedded over ℚ.  The driver script is translated directly;
the LRP library the script calls (rules, pattern fitter, rule registry) is not
part of the visible sources, so those components are modelled from the
specification, as marked on each definition.
-/

namespace TorchLRP

/-! ## Basic helpers -/

def dotL (xs ys : List ℚ) : ℚ := (List.zipWith (fun x y => x * y) xs ys).sum

def vecAdd (xs ys : List ℚ) : List ℚ := List.zipWith (fun x y => x + y) xs ys

def zeroVec (k : ℕ) : List ℚ := List.replicate k 0

def relu (x : ℚ) : ℚ := max x 0

def posPart (x : ℚ) : ℚ := max x 0

def negPart (x : ℚ) : ℚ := min x 0

/-! ## prepare_batch_for_plotting (explain_mnist.py, lines 29-43)

`a /= torch.abs(a).view(a.size(0), -1).max(1)[0].view(-1,1,1,1) + 1e-6`
`a = (a+1) / 2`

One sample of the batch is embedded as the flattened list of its entries. -/

/-- Per-sample maximum absolute value, `torch.abs(a).view(n, -1).max(1)[0]`. -/
def maxAbs (a : List ℚ) : ℚ := a.foldr (fun e m => max |e| m) 0

/-- The per-sample normalization denominator `max |a| + 1e-6`. -/
def normDenom (a : List ℚ) : ℚ := maxAbs a + 1/1000000

/-- The in-place normalization of one sample: divide by `normDenom`, then
map through `(· + 1) / 2`. -/
def normalizeSample (a : List ℚ) : List ℚ :=
  a.map (fun e => (e / normDenom a + 1) / 2)

theorem maxAbs_nonneg (a : List ℚ) : 0 ≤ maxAbs a := by
  induction a with
  | nil => simp [maxAbs]
  | cons x xs ih =>
      simp only [maxAbs, List.foldr_cons] at *
      exact le_trans ih (le_max_right _ _)

theorem abs_le_maxAbs (a : List ℚ) : ∀ e ∈ a, |e| ≤ maxAbs a := by
  induction a with
  | nil => intro e he; simp at he
  | cons x xs ih =>
      intro e he
      rcases List.mem_cons.mp he with h | h
      · subst h
        exact le_max_left _ _
      · refine le_trans (ih e h) ?_
        simp only [maxAbs, List.foldr_cons]
        exact le_max_right _ _

theorem normDenom_pos (a : List ℚ) : 0 < normDenom a := by
  have h := maxAbs_nonneg a
  have : (0:ℚ) < 1/1000000 := by norm_num
  unfold normDenom
  linarith

/-- **C9.** For every input sample given to `prepare_batch_for_plotting`
(including an all-zero attribution), the per-sample normalization denominator
`max |a| + 1e-6` is strictly positive, so the in-place division is
well-defined, and every value produced by the normalization lies in `[0, 1]`
before colormapping. -/
theorem C9_normalization_denominator_pos_and_range (a : List ℚ) :
    0 < normDenom a ∧ ∀ b ∈ normalizeSample a, 0 ≤ b ∧ b ≤ 1 := by
  refine ⟨normDenom_pos a, ?_⟩
  intro b hb
  rcases List.mem_map.mp hb with ⟨e, he, rfl⟩
  have hd : 0 < normDenom a := normDenom_pos a
  have habs : |e| ≤ maxAbs a := abs_le_maxAbs a e he
  have hlt : |e| < normDenom a := by
    unfold normDenom
    have : (0:ℚ) < 1/1000000 := by norm_num
    linarith
  have h1 : -(normDenom a) < e := by
    have := neg_lt_of_abs_lt hlt
    linarith
  have h2 : e < normDenom a := lt_of_abs_lt hlt
  have hlow : (-1 : ℚ) < e / normDenom a := by
    rw [lt_div_iff₀ hd]
    linarith
  have hhigh : e / normDenom a < 1 := by
    rw [div_lt_one hd]
    exact h2
  constructor
  · linarith
  · linarith

/-- Witness for C9: the all-zero sample `[0]` normalizes into `[0, 1]`. -/
theorem C9_witness :
    0 ≤ ((0:ℚ) / normDenom [0] + 1) / 2 ∧ ((0:ℚ) / normDenom [0] + 1) / 2 ≤ 1 :=
  (C9_normalization_denominator_pos_and_range [0]).2 (((0:ℚ) / normDenom [0] + 1) / 2)
    (by simp [normalizeSample])

/-! ## Pattern caching on disk (explain_mnist.py, lines 94-106)

```
if not os.path.exists(all_patterns_path):
    patterns_all = fit_patternnet(model, train_loader)
    store_patterns(all_patterns_path, patterns_all)
else:
    patterns_all = load_patterns(all_patterns_path)
```

The filesystem is embedded as a pair of maps from paths; `pickle.dump` /
`pickle.load` round-trip the stored pattern data exactly. -/

/-- Pattern data as persisted: one vector per layer. -/
def PatternData := List (List ℚ)

/-- Abstract filesystem: which paths exist, and the pattern data a path holds. -/
structure FileSys where
  pathExists : String → Bool
  contents : String → PatternData

/-- `store_patterns(file_name, patterns)` (lines 21-23): write and make exist. -/
def storePatterns (fs : FileSys) (file : String) (pats : PatternData) : FileSys where
  pathExists := fun p => if p = file then true else fs.pathExists p
  contents := fun p => if p = file then pats else fs.contents p

/-- `load_patterns(file_name)` (lines 25-27). -/
def loadPatterns (fs : FileSys) (file : String) : PatternData := fs.contents file

/-- The pattern block of `main` (lines 94-99), parameterized by the fitter
`fit` and the trained `model` (of abstract type `M`).  Returns the patterns
used, whether the fitter was invoked, and the filesystem afterwards. -/
def getPatterns {M : Type} (fit : M → PatternData) (fs : FileSys) (path : String)
    (model : M) : PatternData × Bool × FileSys :=
  if fs.pathExists path then (loadPatterns fs path, false, fs)
  else
    let p := fit model
    (p, true, storePatterns fs path p)

/-- **C2.** Whether the script fits or reuses a PatternSet is decided solely by
whether the pattern pickle file exists: when it exists, the patterns are loaded
from disk, the fitter is never invoked, and the result is independent of the
currently trained model (and even of the fitting function), so a retrained
model silently reuses stale patterns. -/
theorem C2_pattern_cache_keyed_only_by_file_existence {M : Type}
    (fs : FileSys) (path : String) (hex : fs.pathExists path = true)
    (fit fit2 : M → PatternData) (model model2 : M) :
    getPatterns fit fs path model = (loadPatterns fs path, false, fs) ∧
      (getPatterns fit fs path model).1 = (getPatterns fit2 fs path model2).1 := by
  constructor
  · unfold getPatterns
    rw [hex]
    simp
  · unfold getPatterns
    rw [hex]
    simp

/-- Witness for C2: a concrete filesystem on which the pattern file exists. -/
theorem C2_witness :
    getPatterns (fun _ : Unit => ([[2]] : PatternData))
        ⟨fun _ => true, fun _ => [[1]]⟩ "pattern_all.pkl" () =
      (loadPatterns ⟨fun _ => true, fun _ => [[1]]⟩ "pattern_all.pkl", false,
        ⟨fun _ => true, fun _ => [[1]]⟩) :=
  (C2_pattern_cache_keyed_only_by_file_existence
    ⟨fun _ => true, fun _ => [[1]]⟩ "pattern_all.pkl" rfl
    (fun _ => [[2]]) (fun _ => [[2]]) () ()).1

/-! ## Target-neuron selection (explain_mnist.py, lines 77-79)

```
y_hat = model.forward(x, explain=True, rule=rule, pattern=pattern)
y_hat = y_hat[torch.arange(x.shape[0]), y_hat.max(1)[1]]
y_hat = y_hat.sum()
```

`y_hat.max(1)[1]` is the per-sample index of the (first) maximal output;
backpropagating the sum of the selected entries seeds, for each sample, a
one-hot relevance at that index. -/

/-- Maximum entry of a nonempty list (`0` for the empty list). -/
def maxVal : List ℚ → ℚ
  | [] => 0
  | [x] => x
  | x :: y :: t => max x (maxVal (y :: t))

/-- `y_hat.max(1)[1]` for one sample: index of the first maximal entry. -/
def argmaxIdx : List ℚ → ℕ
  | [] => 0
  | [_] => 0
  | x :: y :: t => if maxVal (y :: t) ≤ x then 0 else argmaxIdx (y :: t) + 1

/-- Per-sample target-neuron indices for an output batch. -/
def selectTargets (out : List (List ℚ)) : List ℕ := out.map argmaxIdx

/-- The relevance seed that `y_hat[arange, argmax].sum().backward()` injects
for one sample: one-hot at the argmax index. -/
def seedFor (v : List ℚ) : List ℚ :=
  (List.range v.length).map (fun k => if k = argmaxIdx v then 1 else 0)

/-- The relevance seed for the whole batch. -/
def backwardSeed (out : List (List ℚ)) : List (List ℚ) := out.map seedFor

theorem maxVal_cons₂ (x y : ℚ) (t : List ℚ) :
    maxVal (x :: y :: t) = max x (maxVal (y :: t)) := rfl

theorem argmaxIdx_lt_length (v : List ℚ) (hv : v ≠ []) : argmaxIdx v < v.length := by
  induction v with
  | nil => exact absurd rfl hv
  | cons x xs ih =>
      cases xs with
      | nil => simp [argmaxIdx]
      | cons y t =>
          show (if maxVal (y :: t) ≤ x then 0 else argmaxIdx (y :: t) + 1) < _
          by_cases h : maxVal (y :: t) ≤ x
          · simp [h]
          · simp only [h, if_false]
            have := ih (by simp)
            simpa [Nat.succ_lt_succ_iff] using this

theorem getD_argmaxIdx (v : List ℚ) (hv : v ≠ []) :
    v.getD (argmaxIdx v) 0 = maxVal v := by
  induction v with
  | nil => exact absurd rfl hv
  | cons x xs ih =>
      cases xs with
      | nil => simp [argmaxIdx, maxVal]
      | cons y t =>
          show List.getD _ (if maxVal (y :: t) ≤ x then 0 else argmaxIdx (y :: t) + 1) 0 = _
          by_cases h : maxVal (y :: t) ≤ x
          · simp only [h, if_true, List.getD_cons_zero, maxVal_cons₂]
            exact (max_eq_left h).symm
          · simp only [h, if_false, List.getD_cons_succ]
            rw [ih (by simp), maxVal_cons₂]
            have hle : x ≤ maxVal (y :: t) := le_of_not_le h
            exact (max_eq_right hle).symm

theorem getD_le_maxVal (v : List ℚ) : ∀ k < v.length, v.getD k 0 ≤ maxVal v := by
  induction v with
  | nil => intro k hk; simp at hk
  | cons x xs ih =>
      intro k hk
      cases xs with
      | nil =>
          have hk0 : k = 0 := by
            simpa [Nat.lt_one_iff] using hk
          subst hk0
          simp [maxVal]
      | cons y t =>
          cases k with
          | zero =>
              simp only [List.getD_cons_zero, maxVal_cons₂]
              exact le_max_left _ _
          | succ k =>
              simp only [List.getD_cons_succ, maxVal_cons₂]
              have hk2 : k < (y :: t).length := by
                simpa [Nat.succ_lt_succ_iff] using hk
              exact le_trans (ih k hk2) (le_max_right _ _)

/-- **C3.** In every attribution call of the script, the target neuron whose
relevance is propagated backward is, per sample, the argmax of that sample's
forward-pass output: the backward seed is one-hot (value 1 at the selected
index, 0 elsewhere), the selected index is in range, and the output value at
the selected index is maximal over the sample's outputs.  (The script never
overrides this selector.) -/
theorem C3_target_neuron_is_argmax (out : List (List ℚ)) (v : List ℚ)
    (hv : v ∈ out) (hne : v ≠ []) :
    (seedFor v ∈ backwardSeed out) ∧
    argmaxIdx v < v.length ∧
    (selectTargets out = out.map argmaxIdx) ∧
    (seedFor v).getD (argmaxIdx v) 0 = 1 ∧
    (∀ k < v.length, k ≠ argmaxIdx v → (seedFor v).getD k 0 = 0) ∧
    (∀ k < v.length, v.getD k 0 ≤ v.getD (argmaxIdx v) 0) := by
  have hlt := argmaxIdx_lt_length v hne
  refine ⟨List.mem_map_of_mem _ hv, hlt, rfl, ?_, ?_, ?_⟩
  · unfold seedFor
    rw [List.getD_eq_getElem?_getD]
    rw [List.getElem?_map]
    rw [List.getElem?_range hlt]
    simp
  · intro k hk hkne
    unfold seedFor
    rw [List.getD_eq_getElem?_getD]
    rw [List.getElem?_map]
    rw [List.getElem?_range hk]
    simp [hkne]
  · intro k hk
    rw [getD_argmaxIdx v hne]
    exact getD_le_maxVal v k hk

/-- Witness for C3 on the concrete output batch `[[1, 3, 2]]`: the selected
target is index 1, whose value 3 is the sample's maximum. -/
theorem C3_witness :
    (seedFor [1, 3, 2] ∈ backwardSeed [[(1:ℚ), 3, 2]]) ∧
    argmaxIdx [(1:ℚ), 3, 2] < 3 ∧
    (selectTargets [[(1:ℚ), 3, 2]] = [[(1:ℚ), 3, 2]].map argmaxIdx) ∧
    (seedFor [(1:ℚ), 3, 2]).getD (argmaxIdx [(1:ℚ), 3, 2]) 0 = 1 ∧
    (∀ k < ([(1:ℚ), 3, 2]).length, k ≠ argmaxIdx [(1:ℚ), 3, 2] →
      (seedFor [(1:ℚ), 3, 2]).getD k 0 = 0) ∧
    (∀ k < ([(1:ℚ), 3, 2]).length,
      ([(1:ℚ), 3, 2]).getD k 0 ≤ ([(1:ℚ), 3, 2]).getD (argmaxIdx [(1:ℚ), 3, 2]) 0) :=
  C3_target_neuron_is_argmax [[(1:ℚ), 3, 2]] [(1:ℚ), 3, 2] (by simp) (by simp)

/-! ## The LRP engine, list-based embedding

Modelled from the spec: the `lrp` library the script imports (Rule Registry,
Explainable Forward Pass, Backward Attributor, §§2, 4.1, 4.2, 4.4) is not in
the visible sources.  Layers are linear maps (one weight row per output unit,
with the input feature count carried explicitly, as a tensor's shape is);
nonlinearities pass relevance through unchanged per §4.4. -/

/-- Signed stabilizer for the epsilon rule: `z + ε·sign(z)`, with the sign of
`0` taken positive. -/
def stab (ε z : ℚ) : ℚ := if 0 ≤ z then z + ε else z - ε

/-- Modelled from the spec: one linear layer of the missing `lrp` library. -/
structure LayerL where
  inF : ℕ
  W : List (List ℚ)

/-- Forward evaluation of one linear layer. -/
def layerFwd (L : LayerL) (a : List ℚ) : List ℚ := L.W.map (fun row => dotL row a)

/-- `Wᵀ · coef`: the backward linear operator shared by the rules. -/
def matTvec (L : LayerL) (coef : List ℚ) : List ℚ :=
  (List.zipWith (fun row c => row.map (fun w => w * c)) L.W coef).foldl vecAdd
    (zeroVec L.inF)

/-- Positive parts of a row's per-input contributions `w·aᵢ`. -/
def rowPos (row a : List ℚ) : List ℚ := List.zipWith (fun w ai => posPart (w * ai)) row a

/-- Negative parts of a row's per-input contributions `w·aᵢ`. -/
def rowNeg (row a : List ℚ) : List ℚ := List.zipWith (fun w ai => negPart (w * ai)) row a

/-- Modelled from the spec (§§3, 4.4): the rule set of the missing Rule
Registry. -/
inductive RuleT
  | gradient
  | epsilon (ε : ℚ)
  | alphabeta (α β : ℚ)
  | patternattribution
  | patternnet

/-- Modelled from the spec (§4.4): one relevance-redistribution step of the
missing Backward Attributor, from a layer's output relevance `R` to its input
relevance, given the cached input activation `a` and the layer's fitted
pattern `pat`. -/
def backStep (r : RuleT) (L : LayerL) (pat : List ℚ) (a R : List ℚ) : List ℚ :=
  match r with
  | .gradient => matTvec L R
  | .epsilon ε =>
      List.zipWith (fun ai g => ai * g) a
        (matTvec L (List.zipWith (fun rj zj => rj / stab ε zj) R (layerFwd L a)))
  | .alphabeta α β =>
      vecAdd
        (matTvec ⟨L.inF, L.W.map (fun row => rowPos row a)⟩
          (List.zipWith (fun rj row => α * rj / (rowPos row a).sum) R L.W))
        (matTvec ⟨L.inF, L.W.map (fun row => rowNeg row a)⟩
          (List.zipWith (fun rj row => -(β * rj) / (rowNeg row a).sum) R L.W))
  | .patternattribution =>
      List.zipWith (fun ai g => ai * g) a
        (matTvec ⟨L.inF, L.W.map (fun row => List.zipWith (fun w p => w * p) row pat)⟩ R)
  | .patternnet => pat.map (fun p => p * R.sum)

/-- A feed-forward network: the layer list the attributor sweeps. -/
def NetL := List LayerL

/-- Forward pass (ReLU between layers). -/
def fwdNet : NetL → List ℚ → List ℚ
  | [], a => a
  | L :: rest, a => fwdNet rest ((layerFwd L a).map relu)

/-- The layer-indexed activation cache the Explainable Forward Pass leaves
behind (§4.2): each layer's input activation. -/
def layerInputs : NetL → List ℚ → List (List ℚ)
  | [], _ => []
  | L :: rest, a => a :: layerInputs rest ((layerFwd L a).map relu)

/-- Modelled from the spec (§4.4): the missing Backward Attributor's sweep
from the output layer to the input layer. -/
def backAttr (r : RuleT) : NetL → List (List ℚ) → List ℚ → List ℚ → List ℚ
  | [], _, _, R => R
  | L :: rest, pats, a, R =>
      backStep r L (pats.headD []) a
        (backAttr r rest pats.tail ((layerFwd L a).map relu) R)

/-- Shape discipline of a network: input dimension `nIn`, output `nOut`. -/
def wfNet : NetL → ℕ → ℕ → Prop
  | [], nIn, nOut => nIn = nOut
  | L :: rest, nIn, nOut =>
      L.inF = nIn ∧ (∀ row ∈ L.W, row.length = nIn) ∧ wfNet rest L.W.length nOut

/-- Pattern dimensionality (§3): each layer's pattern vector has that layer's
input feature count. -/
def wfPats : NetL → List (List ℚ) → Prop
  | [], _ => True
  | L :: rest, pats => (pats.headD []).length = L.inF ∧ wfPats rest pats.tail

/-- One full attribution call on one sample: forward pass, per-sample argmax
seed (explain_mnist.py lines 77-79), backward sweep. -/
def attribOne (r : RuleT) (net : NetL) (pats : List (List ℚ)) (x : List ℚ) : List ℚ :=
  backAttr r net pats x (seedFor (fwdNet net x))

/-- The AttributionBatch of a call on an input batch. -/
def attribBatch (r : RuleT) (net : NetL) (pats : List (List ℚ))
    (xs : List (List ℚ)) : List (List ℚ) :=
  xs.map (attribOne r net pats)

theorem vecAdd_length {xs ys : List ℚ} {k : ℕ} (h1 : xs.length = k)
    (h2 : ys.length = k) : (vecAdd xs ys).length = k := by
  simp [vecAdd, h1, h2]

theorem foldl_vecAdd_length {k : ℕ} :
    ∀ (l : List (List ℚ)) (init : List ℚ), (∀ v ∈ l, v.length = k) →
      init.length = k → (l.foldl vecAdd init).length = k := by
  intro l
  induction l with
  | nil => intro init _ hinit; simpa using hinit
  | cons v t ih =>
      intro init hall hinit
      rw [List.foldl_cons]
      exact ih _ (fun u hu => hall u (List.mem_cons_of_mem _ hu))
        (vecAdd_length hinit (hall v (List.mem_cons_self _ _)))

theorem zipWith_scale_mem_length {k : ℕ} :
    ∀ (W : List (List ℚ)) (coef : List ℚ), (∀ row ∈ W, row.length = k) →
      ∀ v ∈ List.zipWith (fun row c => row.map (fun w => w * c)) W coef,
        v.length = k := by
  intro W
  induction W with
  | nil => intro coef _ v hv; simp at hv
  | cons row t ih =>
      intro coef hall v hv
      cases coef with
      | nil => simp at hv
      | cons c ct =>
          rw [List.zipWith_cons_cons] at hv
          rcases List.mem_cons.mp hv with h | h
          · subst h
            simpa using hall row (List.mem_cons_self _ _)
          · exact ih ct (fun u hu => hall u (List.mem_cons_of_mem _ hu)) v h

theorem matTvec_length {L : LayerL} (hW : ∀ row ∈ L.W, row.length = L.inF)
    (coef : List ℚ) : (matTvec L coef).length = L.inF := by
  unfold matTvec
  exact foldl_vecAdd_length _ _ (zipWith_scale_mem_length L.W coef hW) (by simp [zeroVec])

theorem rowPos_length {row a : List ℚ} {k : ℕ} (h1 : row.length = k)
    (h2 : a.length = k) : (rowPos row a).length = k := by
  simp [rowPos, h1, h2]

theorem rowNeg_length {row a : List ℚ} {k : ℕ} (h1 : row.length = k)
    (h2 : a.length = k) : (rowNeg row a).length = k := by
  simp [rowNeg, h1, h2]

theorem backStep_length (r : RuleT) (L : LayerL) (pat a R : List ℚ)
    (hW : ∀ row ∈ L.W, row.length = L.inF) (hp : pat.length = L.inF)
    (ha : a.length = L.inF) : (backStep r L pat a R).length = L.inF := by
  cases r with
  | gradient => exact matTvec_length hW R
  | epsilon ε =>
      simp only [backStep]
      rw [List.length_zipWith, matTvec_length hW, ha, min_self]
  | alphabeta α β =>
      simp only [backStep]
      refine vecAdd_length (matTvec_length ?_ _) (matTvec_length ?_ _)
      · intro row hrow
        rcases List.mem_map.mp hrow with ⟨row0, hrow0, rfl⟩
        exact rowPos_length (hW row0 hrow0) ha
      · intro row hrow
        rcases List.mem_map.mp hrow with ⟨row0, hrow0, rfl⟩
        exact rowNeg_length (hW row0 hrow0) ha
  | patternattribution =>
      simp only [backStep]
      rw [List.length_zipWith, ha]
      have : ∀ row ∈ L.W.map (fun row => List.zipWith (fun w p => w * p) row pat),
          row.length = L.inF := by
        intro row hrow
        rcases List.mem_map.mp hrow with ⟨row0, hrow0, rfl⟩
        rw [List.length_zipWith, hW row0 hrow0, hp, min_self]
      rw [matTvec_length this, min_self]
  | patternnet =>
      simp only [backStep]
      rw [List.length_map, hp]

theorem seedFor_length (v : List ℚ) : (seedFor v).length = v.length := by
  simp [seedFor]

theorem fwdNet_length :
    ∀ (net : NetL) (a : List ℚ) (nIn nOut : ℕ), wfNet net nIn nOut →
      a.length = nIn → (fwdNet net a).length = nOut := by
  intro net
  induction net with
  | nil =>
      intro a nIn nOut hw ha
      simpa [fwdNet, ha] using hw
  | cons L rest ih =>
      intro a nIn nOut hw ha
      rcases hw with ⟨hinF, hrows, hrest⟩
      exact ih _ _ _ hrest (by simp [layerFwd])

theorem backAttr_length :
    ∀ (net : NetL) (r : RuleT) (pats : List (List ℚ)) (a R : List ℚ) (nIn nOut : ℕ),
      wfNet net nIn nOut → wfPats net pats → a.length = nIn → R.length = nOut →
      (backAttr r net pats a R).length = a.length := by
  intro net
  induction net with
  | nil =>
      intro r pats a R nIn nOut hw _ ha hR
      simp only [backAttr]
      rw [hR, ha]
      exact hw.symm
  | cons L rest ih =>
      intro r pats a R nIn nOut hw hp ha hR
      rcases hw with ⟨hinF, hrows, hrest⟩
      rcases hp with ⟨hpat, hptail⟩
      simp only [backAttr]
      rw [backStep_length r L _ _ _ ?_ ?_ ?_]
      · rw [hinF, ha]
      · rw [hinF]
        exact fun row hrow => (hrows row hrow).trans hinF.symm |>.trans hinF
      · exact hpat
      · rw [ha, hinF]

/-- **C7.** For every rule (pattern-attribution and pattern-net on the same
pattern included) and every input batch, the AttributionBatch of an
attribution call has exactly the shape of the input batch: one sample per
input sample, each of its input sample's length. -/
theorem C7_attribution_shape (r : RuleT) (net : NetL) (pats : List (List ℚ))
    (xs : List (List ℚ)) (nIn nOut : ℕ) (hw : wfNet net nIn nOut)
    (hp : wfPats net pats) (hx : ∀ x ∈ xs, x.length = nIn) :
    (attribBatch r net pats xs).length = xs.length ∧
      List.Forall₂ (fun attr x => attr.length = x.length)
        (attribBatch r net pats xs) xs := by
  constructor
  · simp [attribBatch]
  · rw [attribBatch, List.forall₂_map_left_iff, List.forall₂_same]
    intro x hxmem
    unfold attribOne
    refine backAttr_length net r pats x _ nIn nOut hw hp (hx x hxmem) ?_
    rw [seedFor_length]
    exact fwdNet_length net x nIn nOut hw (hx x hxmem)

/-- Witness for C7: a concrete one-layer network, pattern and batch, checked
for each rule kind. -/
theorem C7_witness :
    (attribBatch (RuleT.epsilon (1/1000000)) [⟨2, [[1, 0]]⟩] [[1, 1]]
        [[(1:ℚ), 2]]).length = 1 ∧
      List.Forall₂ (fun attr x => attr.length = x.length)
        (attribBatch (RuleT.epsilon (1/1000000)) [⟨2, [[1, 0]]⟩] [[1, 1]]
          [[(1:ℚ), 2]]) [[(1:ℚ), 2]] := by
  have h := C7_attribution_shape (RuleT.epsilon (1/1000000)) [⟨2, [[1, 0]]⟩]
    [[1, 1]] [[(1:ℚ), 2]] 2 1
    (by exact ⟨rfl, by simp, rfl⟩)
    (by exact ⟨by simp, trivial⟩)
    (by intro x hx; simp at hx; simp [hx])
  simpa using h

/-! ## Error contract of the attribution entry point

Modelled from the spec (§§4.1, 7): the missing Rule Registry resolves the
rule identifier first and fails fast with `UnknownRuleError` on an
unrecognized one, before any forward/backward work. -/

/-- Modelled from the spec (§7): the error taxonomy of the missing library. -/
inductive LrpError
  | unknownRuleError
  | missingPatternError
  | staleActivationError
  | emptyDatasetError
  | shapeMismatchError
deriving DecidableEq

/-- Modelled from the spec (§4.1): `resolve(rule_id)` of the missing Rule
Registry, over the rule identifiers the script uses. -/
def parseRule : String → Option RuleT
  | "gradient" => some .gradient
  | "epsilon" => some (.epsilon (1/1000000))
  | "alpha1beta0" => some (.alphabeta 1 0)
  | "alpha2beta1" => some (.alphabeta 2 1)
  | "patternattribution" => some .patternattribution
  | "patternnet" => some .patternnet
  | _ => none

/-- Which strategies declare the `requires_pattern` capability (§4.1). -/
def needsPattern : RuleT → Bool
  | .patternattribution => true
  | .patternnet => true
  | _ => false

/-- Modelled from the spec (§§4.1, 4.2, 4.4): a full attribution call.  The
rule identifier is resolved first; only then does the forward pass run (its
activation cache is consumed by the backward sweep and cleared at the end,
§4.2).  The call maps an incoming activation-cache state to the cache state
it leaves behind. -/
def attributeCall (net : NetL) (pats : Option (List (List ℚ))) (ruleId : String)
    (x : List ℚ) (caches0 : List (List ℚ)) :
    Except LrpError (List ℚ) × List (List ℚ) :=
  match parseRule ruleId with
  | none => (.error .unknownRuleError, caches0)
  | some r =>
      if needsPattern r = true ∧ pats = none then (.error .missingPatternError, caches0)
      else
        let caches := layerInputs net x
        let attr := backAttr r net (pats.getD []) x (seedFor (fwdNet net x))
        (.ok attr, caches.drop caches.length)

/-- **C5.** Invoking attribution with an unrecognized rule identifier fails
with `UnknownRuleError` before any forward or backward work is performed: the
result does not depend on the network, the input, or the patterns, the cache
state is left exactly as it was, and no cached activations are left behind. -/
theorem C5_unknown_rule_fails_fast (ruleId : String) (h : parseRule ruleId = none)
    (net net2 : NetL) (pats pats2 : Option (List (List ℚ))) (x x2 : List ℚ)
    (c0 : List (List ℚ)) :
    attributeCall net pats ruleId x c0 = (.error .unknownRuleError, c0) ∧
      attributeCall net pats ruleId x c0 = attributeCall net2 pats2 ruleId x2 c0 ∧
      (attributeCall net pats ruleId x []).2 = [] := by
  refine ⟨?_, ?_, ?_⟩ <;> simp only [attributeCall, h]

/-- Witness for C5: the unregistered identifier `"wta"`. -/
theorem C5_witness :
    attributeCall [] none "wta" [] [] = (.error .unknownRuleError, []) :=
  (C5_unknown_rule_fails_fast "wta" rfl [] [] none none [] [] []).1

/-! ## Gradient reset between attribution runs (explain_mnist.py, lines 72-83)

```
def run_and_plot_rule(rule, ax_, ...):
    # Reset gradient
    x.grad = None
    ...
    y_hat.backward()
    attr = x.grad
```

torch autograd accumulates into `x.grad` (`None` starts fresh, otherwise the
new gradient is added), so the reset is what makes runs independent. -/

/-- torch's gradient accumulation into `x.grad` during `backward()`. -/
def backwardInto (g : Option (List ℚ)) (new : List ℚ) : Option (List ℚ) :=
  match g with
  | none => some new
  | some old => some (vecAdd old new)

/-- One `run_and_plot_rule` call on grad state `g0`: line 74 sets
`x.grad = None`, the forward/backward pair accumulates the rule's attribution
into it, line 83 reads `attr = x.grad`.  Returns the attribution read and the
grad state left behind. -/
def runRule (r : RuleT) (net : NetL) (pats : List (List ℚ)) (x : List ℚ)
    (g0 : Option (List ℚ)) : List ℚ × Option (List ℚ) :=
  let g1 : Option (List ℚ) := none
  let g2 := backwardInto g1 (attribOne r net pats x)
  (g2.getD [], g2)

/-- A sequence of earlier rule runs threaded through the grad state. -/
def runSeq (net : NetL) (pats : List (List ℚ)) (x : List ℚ) :
    List RuleT → Option (List ℚ) → Option (List ℚ)
  | [], g => g
  | r :: rs, g => runSeq net pats x rs (runRule r net pats x g).2

/-- **C10.** Each attribution run clears `x.grad` before its forward/backward
pair, so the attribution it reads for a given rule and pattern equals that
run's own attribution and is identical no matter which rules were run earlier
on the same input tensor. -/
theorem C10_grad_reset_makes_runs_independent (net : NetL) (pats : List (List ℚ))
    (x : List ℚ) (r : RuleT) (earlier1 earlier2 : List RuleT)
    (g0 g1 : Option (List ℚ)) :
    (runRule r net pats x (runSeq net pats x earlier1 g0)).1 =
        attribOne r net pats x ∧
      (runRule r net pats x (runSeq net pats x earlier1 g0)).1 =
        (runRule r net pats x (runSeq net pats x earlier2 g1)).1 := by
  exact ⟨rfl, rfl⟩

/-! ## Relevance conservation of the epsilon and alpha-beta rules

Modelled from the spec (§4.4): the per-layer redistribution formulas of the
missing Backward Attributor, over `Fin`-indexed vectors so that the layer
sums can be manipulated exactly.  Layers are linear; nonlinearities pass
relevance through unchanged (§4.4 edge case), so only the ReLU forward
between layers appears. -/

/-- Pre-activation of output unit `j`: the sum of the input contributions. -/
def layerZ {n m : ℕ} (W : Fin m → Fin n → ℚ) (a : Fin n → ℚ) (j : Fin m) : ℚ :=
  ∑ i, W j i * a i

/-- Epsilon-rule redistribution through one layer: each input unit receives
its signed contribution's share of each output relevance, the denominator
stabilized by the signed ε. -/
def epsBack {n m : ℕ} (ε : ℚ) (W : Fin m → Fin n → ℚ) (a : Fin n → ℚ)
    (R : Fin m → ℚ) (i : Fin n) : ℚ :=
  a i * ∑ j, W j i * (R j / stab ε (layerZ W a j))

/-- Sum of the positive contributions to output unit `j`. -/
def zPos {n m : ℕ} (W : Fin m → Fin n → ℚ) (a : Fin n → ℚ) (j : Fin m) : ℚ :=
  ∑ i, posPart (W j i * a i)

/-- Sum of the negative contributions to output unit `j`. -/
def zNeg {n m : ℕ} (W : Fin m → Fin n → ℚ) (a : Fin n → ℚ) (j : Fin m) : ℚ :=
  ∑ i, negPart (W j i * a i)

/-- Alpha-beta redistribution through one layer: positive contributions are
redistributed with weight α, negative ones with weight β. -/
def abBack {n m : ℕ} (α β : ℚ) (W : Fin m → Fin n → ℚ) (a : Fin n → ℚ)
    (R : Fin m → ℚ) (i : Fin n) : ℚ :=
  ∑ j, (α * (posPart (W j i * a i) / zPos W a j)
        - β * (negPart (W j i * a i) / zNeg W a j)) * R j

/-- A feed-forward network indexed by its input and output dimensions. -/
inductive Net : ℕ → ℕ → Type
  | single {n m : ℕ} (W : Fin m → Fin n → ℚ) : Net n m
  | cons {n k m : ℕ} (W : Fin k → Fin n → ℚ) (rest : Net k m) : Net n m

/-- Epsilon-rule attribution: backward sweep from the output relevance `R`
to the input layer. -/
def Net.epsAttr (ε : ℚ) : {n m : ℕ} → Net n m → (Fin n → ℚ) → (Fin m → ℚ) →
    Fin n → ℚ
  | _, _, .single W, a, R => epsBack ε W a R
  | _, _, .cons W rest, a, R =>
      epsBack ε W a (Net.epsAttr ε rest (fun t => relu (layerZ W a t)) R)

/-- Alpha-beta attribution: backward sweep from the output relevance `R`. -/
def Net.abAttr (α β : ℚ) : {n m : ℕ} → Net n m → (Fin n → ℚ) → (Fin m → ℚ) →
    Fin n → ℚ
  | _, _, .single W, a, R => abBack α β W a R
  | _, _, .cons W rest, a, R =>
      abBack α β W a (Net.abAttr α β rest (fun t => relu (layerZ W a t)) R)

/-- Non-degeneracy for alpha-beta: every output unit that carries relevance
during the sweep has a nonzero positive and a nonzero negative contribution
sum (otherwise its share is dropped instead of redistributed). -/
def Net.abNonDeg (α β : ℚ) : {n m : ℕ} → Net n m → (Fin n → ℚ) → (Fin m → ℚ) →
    Prop
  | _, _, .single W, a, R => ∀ j, R j ≠ 0 → zPos W a j ≠ 0 ∧ zNeg W a j ≠ 0
  | _, _, .cons W rest, a, R =>
      (∀ j, Net.abAttr α β rest (fun t => relu (layerZ W a t)) R j ≠ 0 →
        zPos W a j ≠ 0 ∧ zNeg W a j ≠ 0) ∧
      Net.abNonDeg α β rest (fun t => relu (layerZ W a t)) R

/-- Total stabilizer leakage of the epsilon sweep: at each layer, each output
relevance loses the fraction `ε / (|z| + ε)` to the stabilizer. -/
def Net.epsLeak (ε : ℚ) : {n m : ℕ} → Net n m → (Fin n → ℚ) → (Fin m → ℚ) → ℚ
  | _, _, .single W, a, R => ∑ j, |R j| * (ε / (|layerZ W a j| + ε))
  | _, _, .cons W rest, a, R =>
      (∑ j, |Net.epsAttr ε rest (fun t => relu (layerZ W a t)) R j| *
        (ε / (|layerZ W a j| + ε))) +
      Net.epsLeak ε rest (fun t => relu (layerZ W a t)) R

theorem mul_div_stab {ε z r : ℚ} (hε : 0 < ε) :
    z * (r / stab ε z) = (|z| / (|z| + ε)) * r := by
  unfold stab
  by_cases h : 0 ≤ z
  · rw [if_pos h, abs_of_nonneg h]
    have hz : z + ε ≠ 0 := by positivity
    field_simp
  · rw [if_neg h, abs_of_neg (lt_of_not_le h)]
    push_neg at h
    have hz : z - ε ≠ 0 := by
      intro hc
      have : z = ε := by linarith
      linarith
    have hz2 : -z + ε ≠ 0 := by
      have : (0:ℚ) < -z + ε := by linarith
      exact ne_of_gt this
    field_simp
    ring

theorem sum_epsBack {n m : ℕ} (ε : ℚ) (hε : 0 < ε) (W : Fin m → Fin n → ℚ)
    (a : Fin n → ℚ) (R : Fin m → ℚ) :
    ∑ i, epsBack ε W a R i =
      ∑ j, (|layerZ W a j| / (|layerZ W a j| + ε)) * R j := by
  unfold epsBack
  calc ∑ i, a i * ∑ j, W j i * (R j / stab ε (layerZ W a j))
      = ∑ i, ∑ j, W j i * a i * (R j / stab ε (layerZ W a j)) := by
        refine Finset.sum_congr rfl fun i _ => ?_
        rw [Finset.mul_sum]
        exact Finset.sum_congr rfl fun j _ => by ring
    _ = ∑ j, ∑ i, W j i * a i * (R j / stab ε (layerZ W a j)) := Finset.sum_comm
    _ = ∑ j, layerZ W a j * (R j / stab ε (layerZ W a j)) := by
        refine Finset.sum_congr rfl fun j _ => ?_
        rw [layerZ, Finset.sum_mul]
    _ = ∑ j, (|layerZ W a j| / (|layerZ W a j| + ε)) * R j :=
        Finset.sum_congr rfl fun j _ => mul_div_stab hε

theorem epsBack_defect {n m : ℕ} (ε : ℚ) (hε : 0 < ε) (W : Fin m → Fin n → ℚ)
    (a : Fin n → ℚ) (R : Fin m → ℚ) :
    |∑ i, epsBack ε W a R i - ∑ j, R j| ≤
      ∑ j, |R j| * (ε / (|layerZ W a j| + ε)) := by
  rw [sum_epsBack ε hε, ← Finset.sum_sub_distrib]
  have hstep : ∀ j : Fin m,
      (|layerZ W a j| / (|layerZ W a j| + ε)) * R j - R j =
        -(R j * (ε / (|layerZ W a j| + ε))) := by
    intro j
    have hd : |layerZ W a j| + ε ≠ 0 := by positivity
    field_simp
    ring
  calc |∑ j, ((|layerZ W a j| / (|layerZ W a j| + ε)) * R j - R j)|
      ≤ ∑ j, |(|layerZ W a j| / (|layerZ W a j| + ε)) * R j - R j| :=
        Finset.abs_sum_le_sum_abs _ _
    _ = ∑ j, |R j| * (ε / (|layerZ W a j| + ε)) := by
        refine Finset.sum_congr rfl fun j _ => ?_
        rw [hstep j, abs_neg, abs_mul]
        have : |ε / (|layerZ W a j| + ε)| = ε / (|layerZ W a j| + ε) := by
          refine abs_of_nonneg ?_
          positivity
        rw [this]

theorem epsAttr_defect_le_leak (ε : ℚ) (hε : 0 < ε) :
    ∀ {n m : ℕ} (net : Net n m) (a : Fin n → ℚ) (R : Fin m → ℚ),
      |∑ i, net.epsAttr ε a R i - ∑ j, R j| ≤ net.epsLeak ε a R := by
  intro n m net
  induction net with
  | single W =>
      intro a R
      exact epsBack_defect ε hε W a R
  | cons W rest ih =>
      intro a R
      simp only [Net.epsAttr, Net.epsLeak]
      set mid := fun t => relu (layerZ W a t) with hmid
      set R2 := Net.epsAttr ε rest mid R with hR2
      calc |∑ i, epsBack ε W a R2 i - ∑ j, R j|
          ≤ |∑ i, epsBack ε W a R2 i - ∑ j, R2 j| + |∑ j, R2 j - ∑ j, R j| :=
            abs_sub_le _ _ _
        _ ≤ (∑ j, |R2 j| * (ε / (|layerZ W a j| + ε))) + Net.epsLeak ε rest mid R := by
            gcongr
            · exact epsBack_defect ε hε W a R2
            · exact ih mid R

theorem sum_abBack {n m : ℕ} (α β : ℚ) (hβ : β = α - 1) (W : Fin m → Fin n → ℚ)
    (a : Fin n → ℚ) (R : Fin m → ℚ)
    (hnd : ∀ j, R j ≠ 0 → zPos W a j ≠ 0 ∧ zNeg W a j ≠ 0) :
    ∑ i, abBack α β W a R i = ∑ j, R j := by
  unfold abBack
  rw [Finset.sum_comm]
  refine Finset.sum_congr rfl fun j _ => ?_
  by_cases hR : R j = 0
  · simp [hR]
  · obtain ⟨hp, hn⟩ := hnd j hR
    rw [← Finset.sum_mul]
    have hsum : ∑ i, (α * (posPart (W j i * a i) / zPos W a j)
        - β * (negPart (W j i * a i) / zNeg W a j)) = 1 := by
      rw [Finset.sum_sub_distrib, ← Finset.mul_sum, ← Finset.mul_sum,
        ← Finset.sum_div, ← Finset.sum_div]
      rw [show (∑ i, posPart (W j i * a i)) = zPos W a j from rfl,
        show (∑ i, negPart (W j i * a i)) = zNeg W a j from rfl]
      rw [div_self hp, div_self hn, hβ]
      ring
    rw [hsum, one_mul]

theorem abAttr_conserves (α β : ℚ) (hβ : β = α - 1) :
    ∀ {n m : ℕ} (net : Net n m) (a : Fin n → ℚ) (R : Fin m → ℚ),
      net.abNonDeg α β a R → ∑ i, net.abAttr α β a R i = ∑ j, R j := by
  intro n m net
  induction net with
  | single W =>
      intro a R hnd
      exact sum_abBack α β hβ W a R hnd
  | cons W rest ih =>
      intro a R hnd
      obtain ⟨h1, h2⟩ := hnd
      simp only [Net.abAttr]
      rw [sum_abBack α β hβ W a _ h1]
      exact ih _ R h2

/-- **C1 (counterexample).** The claim fails as stated, on both of its rules.
Epsilon: on a 1×1 layer with weight `1e-6`, input `1`, ε = `1e-6` and
selected output relevance `1`, the attribution sums to `1/2`, not within
`1e-5` of the selected relevance.  Alpha-beta (`alpha2beta1`, so
β = α − 1): on a layer with weights `[1, 1]` and input `(1, 1)` every
contribution is positive, the negative contribution sum is `0`, and the
attribution sums to `2` instead of `1`. -/
theorem C1_counterexample :
    (¬ |(∑ i, (Net.single (fun _ _ : Fin 1 => (1:ℚ)/1000000)).epsAttr
        (1/1000000) (fun _ => 1) (fun _ => 1) i) - 1| ≤ 1/100000) ∧
    (¬ |(∑ i, (Net.single (fun (_ : Fin 1) (_ : Fin 2) => (1:ℚ))).abAttr
        2 1 (fun _ => 1) (fun _ => 1) i) - 1| ≤ 1/100000) := by
  constructor
  · have hval : (∑ i, (Net.single (fun _ _ : Fin 1 => (1:ℚ)/1000000)).epsAttr
        (1/1000000) (fun _ => 1) (fun _ => 1) i) = 1/2 := by
      simp only [Net.epsAttr, epsBack, layerZ, stab, Fin.sum_univ_one, mul_one, one_mul]
      norm_num
    rw [hval]
    have habs : |(1:ℚ)/2 - 1| = 1/2 := by
      rw [show (1:ℚ)/2 - 1 = -(1/2) by norm_num, abs_neg,
        abs_of_nonneg (by norm_num : (0:ℚ) ≤ 1/2)]
    rw [habs]
    norm_num
  · have hval : (∑ i, (Net.single (fun (_ : Fin 1) (_ : Fin 2) => (1:ℚ))).abAttr
        2 1 (fun _ => 1) (fun _ => 1) i) = 2 := by
      simp only [Net.abAttr, abBack, zPos, zNeg, posPart, negPart, Fin.sum_univ_one,
        Fin.sum_univ_two, mul_one, one_mul]
      norm_num
    rw [hval]
    have habs : |(2:ℚ) - 1| = 1 := by
      rw [show (2:ℚ) - 1 = 1 by norm_num, abs_of_nonneg (by norm_num : (0:ℚ) ≤ 1)]
    rw [habs]
    norm_num

/-- **C1 (amended).** Alpha-beta with β = α − 1 conserves relevance exactly —
hence within any tolerance — through every network, provided each output unit
carrying relevance has nonzero positive and negative contribution sums (the
alpha-beta half of the counterexample shows conservation fails without this);
the epsilon rule conserves within `1e-5` provided its total stabilizer
leakage `Σ ε·|R|/(|z|+ε)` over the sweep is at most `1e-5` (the epsilon half
of the counterexample shows this side condition cannot be dropped either). -/
theorem C1_amended_conservation :
    (∀ {n m : ℕ} (net : Net n m) (a : Fin n → ℚ) (R : Fin m → ℚ) (α β : ℚ),
      β = α - 1 → net.abNonDeg α β a R →
      ∑ i, net.abAttr α β a R i = ∑ j, R j) ∧
    (∀ {n m : ℕ} (net : Net n m) (a : Fin n → ℚ) (R : Fin m → ℚ) (ε : ℚ),
      0 < ε → net.epsLeak ε a R ≤ 1/100000 →
      |∑ i, net.epsAttr ε a R i - ∑ j, R j| ≤ 1/100000) := by
  constructor
  · intro n m net a R α β hβ hnd
    exact abAttr_conserves α β hβ net a R hnd
  · intro n m net a R ε hε hleak
    exact le_trans (epsAttr_defect_le_leak ε hε net a R) hleak

/-- Witness for the amended C1: a concrete `alpha2beta1` layer with one
positive and one negative contribution conserves exactly, and a concrete
well-scaled epsilon layer conserves within `1e-5`. -/
theorem C1_amended_witness :
    (∑ i, (Net.single (fun (_ : Fin 1) (i : Fin 2) => if i = 0 then (1:ℚ) else -1)).abAttr
        2 1 (fun _ => 1) (fun _ => 1) i) = (∑ j : Fin 1, (1:ℚ)) ∧
    |(∑ i, (Net.single (fun _ _ : Fin 1 => (1:ℚ))).epsAttr (1/1000000)
        (fun _ => 1) (fun _ => 1) i) - ∑ j : Fin 1, (1:ℚ)| ≤ 1/100000 := by
  constructor
  · refine C1_amended_conservation.1
      (Net.single (fun (_ : Fin 1) (i : Fin 2) => if i = 0 then (1:ℚ) else -1))
      (fun _ => 1) (fun _ => 1) 2 1 (by norm_num) ?_
    intro j _
    constructor
    · show zPos _ _ j ≠ 0
      simp only [zPos, posPart, Fin.sum_univ_two]
      norm_num
    · show zNeg _ _ j ≠ 0
      simp only [zNeg, negPart, Fin.sum_univ_two]
      norm_num
  · refine C1_amended_conservation.2
      (Net.single (fun _ _ : Fin 1 => (1:ℚ))) (fun _ => 1) (fun _ => 1)
      (1/1000000) (by norm_num) ?_
    simp only [Net.epsLeak, layerZ, Fin.sum_univ_one, mul_one]
    norm_num

/-! ## The Pattern Fitter

Modelled from the spec (§4.3): `fit_patternnet` / `fit_patternnet_positive`
of the missing `lrp.patterns` module.  Per layer, the fitter streams the
training batches once, keeping a running count, running activation sum,
running output sum and running output-weighted activation sum (the
positive-only variant accumulating only ReLU-active samples), and closes the
pass with the covariance-ratio Pattern. -/

/-- One training sample for one layer: cached input activation and the
layer's (scalar) projected output value. -/
structure SampleV (d : ℕ) where
  act : Fin d → ℚ
  out : ℚ

/-- The streaming accumulator of §4.3. -/
structure Acc (d : ℕ) where
  cnt : ℚ
  sumA : Fin d → ℚ
  sumY : ℚ
  sumAY : Fin d → ℚ

def Acc.empty (d : ℕ) : Acc d :=
  ⟨0, fun _ => 0, 0, fun _ => 0⟩

/-- Absorb one sample into the running sums. -/
def Acc.add {d : ℕ} (acc : Acc d) (s : SampleV d) : Acc d :=
  ⟨acc.cnt + 1, fun i => acc.sumA i + s.act i, acc.sumY + s.out,
    fun i => acc.sumAY i + s.act i * s.out⟩

/-- `strategy_variant ∈ {all, positive-only}` (§4.3). -/
inductive FitVariant
  | all
  | positiveOnly

/-- The positive-only variant keeps only samples in the ReLU-active regime. -/
def keepSample {d : ℕ} (v : FitVariant) (s : SampleV d) : Bool :=
  match v with
  | .all => true
  | .positiveOnly => decide (0 < s.out)

/-- One accumulation step, respecting the variant's mask. -/
def accStep {d : ℕ} (v : FitVariant) (acc : Acc d) (s : SampleV d) : Acc d :=
  if keepSample v s then acc.add s else acc

/-- One-pass streaming accumulation: the running accumulator is threaded
through all batches in order. -/
def onePassAcc {d : ℕ} (v : FitVariant) (batches : List (List (SampleV d))) :
    Acc d :=
  batches.foldl (fun acc b => b.foldl (accStep v) acc) (Acc.empty d)

/-- Two-pass computation: first collect every sample, then accumulate the
whole training set in one batch. -/
def twoPassAcc {d : ℕ} (v : FitVariant) (batches : List (List (SampleV d))) :
    Acc d :=
  batches.flatten.foldl (accStep v) (Acc.empty d)

/-- Close the pass: the Pattern is the ratio of the activation/output
covariance to the projected-activation/output covariance (§4.3). -/
def patternOf {d : ℕ} (w : Fin d → ℚ) (acc : Acc d) : Fin d → ℚ :=
  let cov := fun i => acc.sumAY i / acc.cnt - (acc.sumA i / acc.cnt) * (acc.sumY / acc.cnt)
  fun i => cov i / ∑ t, w t * cov t

theorem foldl_flatten {α β : Type} (f : α → β → α) :
    ∀ (bs : List (List β)) (init : α),
      bs.flatten.foldl f init = bs.foldl (fun acc b => b.foldl f acc) init := by
  intro bs
  induction bs with
  | nil => intro init; rfl
  | cons b t ih =>
      intro init
      rw [List.flatten_cons, List.foldl_append, List.foldl_cons, ih]

/-- **C4.** For every finite training set and every strategy variant, the
incremental one-pass streaming accumulation equals the two-pass
collect-then-compute accumulation exactly, and therefore the covariance-ratio
Patterns they yield agree exactly — in particular within tolerance `1e-5`. -/
theorem C4_one_pass_two_pass_equivalence {d : ℕ} (v : FitVariant)
    (w : Fin d → ℚ) (batches : List (List (SampleV d))) :
    onePassAcc v batches = twoPassAcc v batches ∧
      patternOf w (onePassAcc v batches) = patternOf w (twoPassAcc v batches) ∧
      ∀ i, |patternOf w (onePassAcc v batches) i -
        patternOf w (twoPassAcc v batches) i| ≤ 1/100000 := by
  have h : onePassAcc v batches = twoPassAcc v batches :=
    (foldl_flatten (accStep v) batches (Acc.empty d)).symm
  refine ⟨h, by rw [h], ?_⟩
  intro i
  rw [h]
  simp

/-! ## Pattern Fitter on an empty training sequence

Modelled from the spec (§§4.3, 7): `fit` fails with `EmptyDatasetError` when
the training-batch sequence yields zero batches. -/

/-- Modelled from the spec: the fitter entry point with its error contract.
The emptiness check precedes the streaming pass; the error is returned
directly to the caller (no retry path exists). -/
def fitPatterns {d : ℕ} (v : FitVariant) (w : Fin d → ℚ)
    (batches : List (List (SampleV d))) : Except LrpError (Fin d → ℚ) :=
  if batches.isEmpty then .error .emptyDatasetError
  else .ok (patternOf w (onePassAcc v batches))

/-- **C8.** A Pattern Fitter invocation whose training-batch sequence yields
zero batches fails with `EmptyDatasetError`, reported immediately to the
caller as the call's only result (so there is nothing to retry). -/
theorem C8_empty_dataset_fails {d : ℕ} (v : FitVariant) (w : Fin d → ℚ) :
    fitPatterns v w [] = .error .emptyDatasetError := by
  rfl

/-! ## Determinism of the Pattern Fitter

explain_mnist.py, lines 143-149: `__main__` seeds all three RNGs with the
same seed.  Modelled from the spec (§5): the backend RNG is a
seed-determined stream (a linear congruential generator stands in for it),
model initialization reads the torch stream, and the fitter itself is the
pure streaming pass of §4.3, so a run is a function of the seed and the
data-loader order. -/

/-- A seed-determined pseudo-random stream standing in for the backend RNG. -/
def lcg (seed k : ℕ) : ℚ :=
  (((seed * 1103515245 + k * 12345 + 12345) % 2147483648 : ℕ) : ℚ) / 2147483648

/-- The RNG states seeded by `__main__` (lines 147-149). -/
structure RngState where
  np : ℕ
  torch : ℕ
  py : ℕ

/-- `np.random.seed(seed); torch.manual_seed(seed); random.seed(seed)`. -/
def seedAll (seed : ℕ) : RngState := ⟨seed, seed, seed⟩

/-- Model weights initialized from the torch stream. -/
def initWeights (d : ℕ) (g : RngState) : Fin d → ℚ := fun i => lcg g.torch i.val

/-- One full Pattern Fitter run: seed the RNGs, initialize the model, stream
the loader once, close the pass. -/
def fitterRun (d : ℕ) (v : FitVariant) (seed : ℕ)
    (loader : List (List (SampleV d))) : Fin d → ℚ :=
  patternOf (initWeights d (seedAll seed)) (onePassAcc v loader)

/-- **C6.** Two Pattern Fitter runs with identical seed and identical
data-loader order produce identical Pattern arrays (exactly, since the ℚ
embedding has one arithmetic backend). -/
theorem C6_fitter_deterministic (d : ℕ) (v : FitVariant) (s1 s2 : ℕ)
    (l1 l2 : List (List (SampleV d))) (hs : s1 = s2) (hl : l1 = l2) :
    fitterRun d v s1 l1 = fitterRun d v s2 l2 := by
  subst hs
  subst hl
  rfl

/-- Witness for C6: two runs from seed 7 on the same one-batch loader. -/
theorem C6_witness :
    fitterRun 1 FitVariant.all 7 [[⟨fun _ => 1, 1⟩]] =
      fitterRun 1 FitVariant.all 7 [[⟨fun _ => 1, 1⟩]] :=
  C6_fitter_deterministic 1 FitVariant.all 7 7 [[⟨fun _ => 1, 1⟩]]
    [[⟨fun _ => 1, 1⟩]] rfl rfl

end TorchLRP
